import Mathlib

/-!
# Verification of the Blizzard 2021 Spanish TTS text frontend

Shallow embedding of `PreprocessingForTTS/ProcessText.py` (class
`TextFrontend`): the duration-frame aligner of `phones_and_dur_to_tensor`,
the code-switching chunk segmentation of `string_to_tensor` and
`postprocess_codeswitch`, the phone substitution rules of `map_phones`,
the punctuation folding of `string_to_tensor`, and the symbol-table
loading of `__init__`.

Strings are modelled as `List Char` (`Str`), Python floats as `ℚ`,
Python `dict` as an association list with last-write-wins lookup, and
raising an exception as returning `none`.
-/

/-- Python strings, modelled as lists of characters. -/
abbrev Str := List Char

/-! ## Duration-frame aligner (`phones_and_dur_to_tensor`, lines 294-311)

The arithmetic part of `phones_and_dur_to_tensor`: from the parsed
durations `durs` and the target frame count `N = len(melspec)` it computes
`x = N / sum(durs)`, `frames = [round(dur * x) for dur in durs]`,
`diff = N - sum(frames)`, and then corrects the top-`|diff|` entries of
`numpy.argsort(frames)[::-1]` by `±1`.  Python's float arithmetic is
modelled with exact rationals. -/

/-- Python's built-in `round` (round half to even), used in
`frames = [round(dur * x) for dur in durs]` (line 295). -/
def pyRound (q : ℚ) : ℤ :=
  if q - (Rat.floor q : ℚ) < 1/2 then Rat.floor q
  else if 1/2 < q - (Rat.floor q : ℚ) then Rat.floor q + 1
  else if Rat.floor q % 2 = 0 then Rat.floor q else Rat.floor q + 1

/-- The comparison used to model `numpy.argsort(frames)` (lines 300 and
305): indices ordered by frame value, ties kept in original (ascending
index) order, i.e. lexicographic order on the pair (value, index).
Modelling caveat: numpy's default argsort guarantees this tie order only
for short arrays (it insertion-sorts partitions of fewer than 16 elements
and is unstable in general), so only the value order, the permutation
property, and evaluations on such short arrays transfer to the program;
the order among tied frame counts of longer lists is left unspecified by
the code and is *not* a property the model's tie-break can be trusted
for. -/
def leIdx (frames : List ℤ) (i j : ℕ) : Prop :=
  frames.getD i 0 < frames.getD j 0 ∨ (frames.getD i 0 = frames.getD j 0 ∧ i ≤ j)

instance leIdxDecidable (frames : List ℤ) : DecidableRel (leIdx frames) := by
  intro i j
  unfold leIdx
  infer_instance

instance leIdxTotal (frames : List ℤ) : IsTotal ℕ (leIdx frames) := by
  constructor
  intro a b
  unfold leIdx
  rcases lt_trichotomy (frames.getD a 0) (frames.getD b 0) with h | h | h
  · exact Or.inl (Or.inl h)
  · omega
  · exact Or.inr (Or.inl h)

instance leIdxTrans (frames : List ℤ) : IsTrans ℕ (leIdx frames) := by
  constructor
  intro a b c hab hbc
  unfold leIdx at *
  rcases hab with h1 | ⟨h1, h1i⟩ <;> rcases hbc with h2 | ⟨h2, h2i⟩
  · exact Or.inl (h1.trans h2)
  · exact Or.inl (h2 ▸ h1)
  · exact Or.inl (h1 ▸ h2)
  · exact Or.inr ⟨h1.trans h2, h1i.trans h2i⟩

/-- `numpy.argsort(frames)[::-1]` (lines 300 and 305): the stable ascending
argsort of `frames`, reversed. -/
def argsortDesc (frames : List ℤ) : List ℕ :=
  (List.insertionSort (leIdx frames) (List.range frames.length)).reverse

/-- The correction loops (lines 301-303 and 306-308): add `delta` to the
entry of `frames` at each index of `idxs` in turn. -/
def bumpAt (frames : List ℤ) (idxs : List ℕ) (delta : ℤ) : List ℤ :=
  idxs.foldl (fun fs i => fs.set i (fs.getD i 0 + delta)) frames

/-- `frames = [round(dur * x) for dur in durs]` with
`x = len(melspec) / sum(durs)` (lines 294-295). -/
def rawFrames (durs : List ℚ) (N : ℕ) : List ℤ :=
  durs.map (fun d => pyRound (d * ((N : ℚ) / durs.sum)))

/-- The two correction branches of lines 299-308: if `diff > 0` add one
frame to the first `diff` indices of `numpy.argsort(frames)[::-1]`, if
`diff < 0` subtract one frame from the first `|diff|` of them. -/
def correction (frames : List ℤ) (diff : ℤ) : List ℤ :=
  if 0 < diff then bumpAt frames ((argsortDesc frames).take diff.toNat) 1
  else if diff < 0 then bumpAt frames ((argsortDesc frames).take diff.natAbs) (-1)
  else frames

/-- Lines 296-309 of `phones_and_dur_to_tensor`: compute `diff`, correct the
top-ranked `|diff|` entries by `±1`, then `assert sum(frames) == len(melspec)`.
`none` models an exception: an `IndexError` of `sorted_frames[i]` when
`|diff|` exceeds the number of entries, or the `AssertionError` (the spec's
`DurationMismatchError`) when the corrected sum misses the target. -/
def correctFrames (frames : List ℤ) (N : ℕ) : Option (List ℤ) :=
  if ((N : ℤ) - frames.sum).natAbs ≤ frames.length then
    if (correction frames ((N : ℤ) - frames.sum)).sum = (N : ℤ) then
      some (correction frames ((N : ℤ) - frames.sum))
    else none
  else none

/-- The whole frame-alignment computation of `phones_and_dur_to_tensor`
(lines 294-311) on the parsed durations: `none` on `sum(durs) == 0` models
Python's `ZeroDivisionError` in `x = len(melspec) / sum(durs)`. -/
def alignFrames (durs : List ℚ) (N : ℕ) : Option (List ℤ) :=
  if durs.sum = 0 then none
  else correctFrames (rawFrames durs N) N

/-! ### Helper lemmas for evaluating `pyRound` on concrete rationals
(`Rat.add` and friends are irreducible, so `decide` cannot reach inside
them; these reduce concrete calls to `norm_num` goals). -/

theorem ratFloor_eq_intFloor (q : ℚ) : Rat.floor q = ⌊q⌋ := rfl

theorem pyRound_of_lt_half (q : ℚ) (z : ℤ) (hle : (z : ℚ) ≤ q)
    (hlt : q < (z : ℚ) + 1/2) : pyRound q = z := by
  have hfl : ⌊q⌋ = z := by
    rw [Int.floor_eq_iff]
    constructor
    · exact hle
    · calc q < (z : ℚ) + 1/2 := hlt
        _ ≤ (z : ℚ) + 1 := by norm_num
  unfold pyRound
  rw [ratFloor_eq_intFloor, hfl]
  have hfrac : q - (z : ℚ) < 1/2 := by linarith
  rw [if_pos hfrac]

theorem pyRound_of_gt_half (q : ℚ) (z : ℤ) (hgt : (z : ℚ) + 1/2 < q)
    (hlt : q < (z : ℚ) + 1) : pyRound q = z + 1 := by
  have hfl : ⌊q⌋ = z := by
    rw [Int.floor_eq_iff]
    constructor
    · calc (z : ℚ) ≤ (z : ℚ) + 1/2 := by norm_num
        _ ≤ q := le_of_lt hgt
    · exact hlt
  unfold pyRound
  rw [ratFloor_eq_intFloor, hfl]
  have h1 : ¬ (q - (z : ℚ) < 1/2) := by linarith
  have h2 : (1 : ℚ)/2 < q - (z : ℚ) := by linarith
  rw [if_neg h1, if_pos h2]

/-- Each rounded value is within 1/2 of its argument. -/
theorem pyRound_err (q : ℚ) : |(pyRound q : ℚ) - q| ≤ 1/2 := by
  unfold pyRound
  rw [ratFloor_eq_intFloor]
  have h0 : (⌊q⌋ : ℚ) ≤ q := Int.floor_le q
  have h1 : q < (⌊q⌋ : ℚ) + 1 := Int.lt_floor_add_one q
  by_cases hlt : q - (⌊q⌋ : ℚ) < 1/2
  · rw [if_pos hlt, abs_le]
    constructor <;> linarith
  · rw [if_neg hlt]
    by_cases hgt : (1 : ℚ)/2 < q - (⌊q⌋ : ℚ)
    · rw [if_pos hgt, abs_le]
      push_cast
      constructor <;> linarith
    · rw [if_neg hgt]
      have heq : q - (⌊q⌋ : ℚ) = 1/2 := le_antisymm (not_lt.mp hgt) (not_lt.mp hlt)
      by_cases hev : ⌊q⌋ % 2 = 0
      · rw [if_pos hev, abs_le]
        constructor <;> linarith
      · rw [if_neg hev, abs_le]
        push_cast
        constructor <;> linarith

/-! ### Structural lemmas about the `±1` correction -/

theorem bumpAt_nil (fs : List ℤ) (δ : ℤ) : bumpAt fs [] δ = fs := rfl

theorem bumpAt_cons (fs : List ℤ) (i : ℕ) (rest : List ℕ) (δ : ℤ) :
    bumpAt fs (i :: rest) δ = bumpAt (fs.set i (fs.getD i 0 + δ)) rest δ := rfl

theorem bumpAt_length (δ : ℤ) (idxs : List ℕ) :
    ∀ fs : List ℤ, (bumpAt fs idxs δ).length = fs.length := by
  induction idxs with
  | nil => intro fs; rfl
  | cons i rest ih =>
    intro fs
    rw [bumpAt_cons, ih, List.length_set]

theorem sum_set_getD (fs : List ℤ) (i : ℕ) (v : ℤ) (h : i < fs.length) :
    (fs.set i v).sum = fs.sum - fs.getD i 0 + v := by
  induction fs generalizing i with
  | nil => simp at h
  | cons c rest ih =>
    cases i with
    | zero =>
      simp only [List.set, List.sum_cons, List.getD_cons_zero]
      ring
    | succ n =>
      have hn : n < rest.length := by simpa using h
      simp only [List.set, List.sum_cons, List.getD_cons_succ, ih n hn]
      ring

theorem getD_set_of_lt (fs : List ℤ) (i j : ℕ) (v : ℤ) (hi : i < fs.length) :
    (fs.set i v).getD j 0 = if j = i then v else fs.getD j 0 := by
  induction fs generalizing i j with
  | nil => simp at hi
  | cons c rest ih =>
    cases i with
    | zero =>
      cases j with
      | zero => simp [List.set]
      | succ m => simp [List.set]
    | succ n =>
      cases j with
      | zero => simp [List.set]
      | succ m =>
        have hn : n < rest.length := by simpa using hi
        simp only [List.set, List.getD_cons_succ, ih n m hn]
        by_cases hmn : m = n
        · simp [hmn]
        · simp [hmn]

theorem bumpAt_sum (δ : ℤ) (idxs : List ℕ) :
    ∀ fs : List ℤ, (∀ i ∈ idxs, i < fs.length) →
      (bumpAt fs idxs δ).sum = fs.sum + (idxs.length : ℤ) * δ := by
  induction idxs with
  | nil => intro fs _; simp [bumpAt_nil]
  | cons i rest ih =>
    intro fs hb
    have hi : i < fs.length := hb i (List.mem_cons_self i rest)
    have hb2 : ∀ k ∈ rest, k < (fs.set i (fs.getD i 0 + δ)).length := by
      intro k hk
      rw [List.length_set]
      exact hb k (List.mem_cons_of_mem i hk)
    rw [bumpAt_cons, ih _ hb2, sum_set_getD fs i _ hi, List.length_cons]
    push_cast
    ring

theorem bumpAt_getD (δ : ℤ) (idxs : List ℕ) :
    ∀ (fs : List ℤ) (j : ℕ), idxs.Nodup → (∀ i ∈ idxs, i < fs.length) →
      (bumpAt fs idxs δ).getD j 0 = fs.getD j 0 + (if j ∈ idxs then δ else 0) := by
  induction idxs with
  | nil => intro fs j _ _; simp [bumpAt_nil]
  | cons i rest ih =>
    intro fs j hnd hb
    have hi : i < fs.length := hb i (List.mem_cons_self i rest)
    have hb2 : ∀ k ∈ rest, k < (fs.set i (fs.getD i 0 + δ)).length := by
      intro k hk
      rw [List.length_set]
      exact hb k (List.mem_cons_of_mem i hk)
    rw [bumpAt_cons, ih _ j (List.nodup_cons.mp hnd).2 hb2,
      getD_set_of_lt fs i j _ hi]
    by_cases hji : j = i
    · subst hji
      have hjr : j ∉ rest := (List.nodup_cons.mp hnd).1
      rw [if_pos rfl, if_neg hjr, if_pos (List.mem_cons_self j rest)]
      ring
    · rw [if_neg hji]
      have hmem : (j ∈ i :: rest) ↔ (j ∈ rest) := by
        simp [List.mem_cons, hji]
      by_cases hr : j ∈ rest
      · rw [if_pos hr, if_pos (hmem.mpr hr)]
      · rw [if_neg hr, if_neg (fun hc => hr (hmem.mp hc))]

/-! ### The descending argsort is a permutation of the index range -/

theorem argsortDesc_perm (frames : List ℤ) :
    (argsortDesc frames).Perm (List.range frames.length) := by
  unfold argsortDesc
  exact (List.reverse_perm _).trans (List.perm_insertionSort _ _)

theorem argsortDesc_nodup (frames : List ℤ) : (argsortDesc frames).Nodup :=
  ((argsortDesc_perm frames).nodup_iff).mpr (List.nodup_range frames.length)

theorem argsortDesc_mem_lt (frames : List ℤ) (i : ℕ) (h : i ∈ argsortDesc frames) :
    i < frames.length :=
  List.mem_range.mp ((argsortDesc_perm frames).mem_iff.mp h)

theorem argsortDesc_length (frames : List ℤ) :
    (argsortDesc frames).length = frames.length := by
  rw [(argsortDesc_perm frames).length_eq, List.length_range]

/-! ### The corrected frame counts: existence, length, sum, per-index bound -/

theorem correction_length (frames : List ℤ) (diff : ℤ) :
    (correction frames diff).length = frames.length := by
  unfold correction
  by_cases h1 : 0 < diff
  · rw [if_pos h1, bumpAt_length]
  · rw [if_neg h1]
    by_cases h2 : diff < 0
    · rw [if_pos h2, bumpAt_length]
    · rw [if_neg h2]

theorem take_argsort_bounds (frames : List ℤ) (k : ℕ) :
    ∀ i ∈ (argsortDesc frames).take k, i < frames.length := by
  intro i hi
  exact argsortDesc_mem_lt frames i ((List.take_sublist k _).mem hi)

theorem take_argsort_nodup (frames : List ℤ) (k : ℕ) :
    ((argsortDesc frames).take k).Nodup :=
  (List.take_sublist k _).nodup (argsortDesc_nodup frames)

theorem correction_sum (frames : List ℤ) (diff : ℤ)
    (h : diff.natAbs ≤ frames.length) :
    (correction frames diff).sum = frames.sum + diff := by
  unfold correction
  by_cases h1 : 0 < diff
  · rw [if_pos h1, bumpAt_sum _ _ _ (take_argsort_bounds frames _)]
    rw [List.length_take, argsortDesc_length]
    have htake : diff.toNat ⊓ frames.length = diff.toNat := by omega
    rw [htake]
    have : (diff.toNat : ℤ) = diff := Int.toNat_of_nonneg (le_of_lt h1)
    rw [this]
    ring
  · rw [if_neg h1]
    by_cases h2 : diff < 0
    · rw [if_pos h2, bumpAt_sum _ _ _ (take_argsort_bounds frames _)]
      rw [List.length_take, argsortDesc_length]
      have htake : diff.natAbs ⊓ frames.length = diff.natAbs := by omega
      rw [htake]
      have : (diff.natAbs : ℤ) = -diff := by omega
      rw [this]
      ring
    · rw [if_neg h2]
      have : diff = 0 := by omega
      rw [this]
      ring

theorem correction_getD (frames : List ℤ) (diff : ℤ) (j : ℕ) :
    ((correction frames diff).getD j 0 - frames.getD j 0).natAbs ≤ 1 := by
  unfold correction
  by_cases h1 : 0 < diff
  · rw [if_pos h1, bumpAt_getD _ _ _ _ (take_argsort_nodup frames _)
      (take_argsort_bounds frames _)]
    by_cases hj : j ∈ (argsortDesc frames).take diff.toNat <;> simp [hj]
  · rw [if_neg h1]
    by_cases h2 : diff < 0
    · rw [if_pos h2, bumpAt_getD _ _ _ _ (take_argsort_nodup frames _)
        (take_argsort_bounds frames _)]
      by_cases hj : j ∈ (argsortDesc frames).take diff.natAbs <;> simp [hj]
    · rw [if_neg h2]
      simp

theorem correctFrames_eq (frames : List ℤ) (N : ℕ)
    (h : ((N : ℤ) - frames.sum).natAbs ≤ frames.length) :
    correctFrames frames N = some (correction frames ((N : ℤ) - frames.sum)) := by
  unfold correctFrames
  rw [if_pos h, if_pos]
  rw [correction_sum _ _ h]
  ring

/-! ### The rounding error bound: `|diff|` never exceeds the entry count -/

theorem roundErrList (ys : List ℚ) :
    |((ys.map pyRound).sum : ℚ) - ys.sum| ≤ (ys.length : ℚ) * (1/2) := by
  induction ys with
  | nil => simp
  | cons y ys ih =>
    simp only [List.map_cons, List.sum_cons, List.length_cons]
    have h1 := pyRound_err y
    calc |((pyRound y + (ys.map pyRound).sum : ℤ) : ℚ) - (y + ys.sum)|
        = |((pyRound y : ℚ) - y) + (((ys.map pyRound).sum : ℤ) : ℚ) - ys.sum| := by
          push_cast
          ring_nf
      _ = |(((pyRound y : ℚ) - y) + ((((ys.map pyRound).sum : ℤ) : ℚ) - ys.sum))| := by
          ring_nf
      _ ≤ |(pyRound y : ℚ) - y| + |(((ys.map pyRound).sum : ℤ) : ℚ) - ys.sum| :=
          abs_add _ _
      _ ≤ 1/2 + (ys.length : ℚ) * (1/2) := add_le_add h1 ih
      _ = ((ys.length + 1 : ℕ) : ℚ) * (1/2) := by
          push_cast
          ring

theorem rawFrames_eq_map (durs : List ℚ) (N : ℕ) :
    rawFrames durs N = (durs.map (fun d => d * ((N : ℚ) / durs.sum))).map pyRound := by
  unfold rawFrames
  rw [List.map_map]
  rfl

theorem rawFrames_length (durs : List ℚ) (N : ℕ) :
    (rawFrames durs N).length = durs.length := by
  unfold rawFrames
  rw [List.length_map]

theorem diff_bound (durs : List ℚ) (N : ℕ) (hs : durs.sum ≠ 0) :
    ((N : ℤ) - (rawFrames durs N).sum).natAbs ≤ durs.length := by
  have hsum : (durs.map (fun d => d * ((N : ℚ) / durs.sum))).sum = (N : ℚ) := by
    rw [List.sum_map_mul_right]
    have hid : List.map (fun d : ℚ => d) durs = durs := List.map_id durs
    rw [hid, mul_comm, div_mul_cancel₀ _ hs]
  have herr := roundErrList (durs.map (fun d => d * ((N : ℚ) / durs.sum)))
  rw [hsum, List.length_map, ← rawFrames_eq_map] at herr
  have hcast : (((N : ℤ) - (rawFrames durs N).sum : ℤ) : ℚ)
      = (N : ℚ) - ((rawFrames durs N).sum : ℚ) := by push_cast; ring
  have habs : |(((N : ℤ) - (rawFrames durs N).sum : ℤ) : ℚ)| ≤ (durs.length : ℚ) := by
    rw [hcast, abs_sub_comm]
    calc |((rawFrames durs N).sum : ℚ) - (N : ℚ)| ≤ (durs.length : ℚ) * (1/2) := herr
      _ ≤ (durs.length : ℚ) := by
          have : (0 : ℚ) ≤ (durs.length : ℚ) := Nat.cast_nonneg _
          linarith
  have h2 : ((((N : ℤ) - (rawFrames durs N).sum).natAbs : ℚ)) ≤ (durs.length : ℚ) := by
    rw [Int.cast_natAbs, Int.cast_abs]
    exact habs
  exact_mod_cast h2

/-- Master lemma: on any non-empty list of positive durations and any
target `N` (including `N = 0`) the frame alignment succeeds; the output
has one entry per duration and sums exactly to `N`. -/
theorem alignFrames_total (durs : List ℚ) (N : ℕ) (hne : durs ≠ [])
    (hpos : ∀ d ∈ durs, 0 < d) :
    ∃ out, alignFrames durs N = some out ∧ out.length = durs.length ∧
      out.sum = (N : ℤ) := by
  have hs : durs.sum ≠ 0 := ne_of_gt (List.sum_pos durs hpos hne)
  have hb : ((N : ℤ) - (rawFrames durs N).sum).natAbs ≤ (rawFrames durs N).length := by
    rw [rawFrames_length]
    exact diff_bound durs N hs
  refine ⟨correction (rawFrames durs N) ((N : ℤ) - (rawFrames durs N).sum), ?_, ?_, ?_⟩
  · unfold alignFrames
    rw [if_neg hs, correctFrames_eq _ _ hb]
  · rw [correction_length, rawFrames_length]
  · rw [correction_sum _ _ hb]
    ring

/-! ### Concrete evaluations used by the aligner claims -/

theorem raw111 : rawFrames [1, 1, 1] 10 = [3, 3, 3] := by
  have hpr : pyRound ((1 : ℚ) * (((10 : ℕ) : ℚ) / List.sum [(1 : ℚ), 1, 1])) = 3 := by
    have harg : (1 : ℚ) * (((10 : ℕ) : ℚ) / List.sum [(1 : ℚ), 1, 1]) = 10/3 := by
      push_cast
      norm_num
    rw [harg]
    exact pyRound_of_lt_half (10/3) 3 (by norm_num) (by norm_num)
  unfold rawFrames
  simp only [List.map_cons, List.map_nil]
  rw [hpr]

theorem align111 : alignFrames [1, 1, 1] 10 = some [3, 3, 4] := by
  unfold alignFrames
  rw [if_neg (by norm_num : ¬ List.sum [(1 : ℚ), 1, 1] = 0), raw111]
  decide

theorem raw1zero : rawFrames [1] 0 = [0] := by
  have hpr : pyRound ((1 : ℚ) * (((0 : ℕ) : ℚ) / List.sum [(1 : ℚ)])) = 0 := by
    have harg : (1 : ℚ) * (((0 : ℕ) : ℚ) / List.sum [(1 : ℚ)]) = 0 := by
      push_cast
      norm_num
    rw [harg]
    exact pyRound_of_lt_half 0 0 (by norm_num) (by norm_num)
  unfold rawFrames
  simp only [List.map_cons, List.map_nil]
  rw [hpr]

theorem align1zero : alignFrames [1] 0 = some [0] := by
  unfold alignFrames
  rw [if_neg (by norm_num : ¬ List.sum [(1 : ℚ)] = 0), raw1zero]
  decide

/-! ## Claims about the duration-frame aligner -/

/-- C1: for every alignment input with a non-empty list of positive
durations and target frame count `N > 0`, the aligner succeeds and returns
one integer frame count per input symbol token, summing exactly to `N`. -/
theorem C1_align_length_and_exact_sum (durs : List ℚ) (N : ℕ)
    (hne : durs ≠ []) (hpos : ∀ d ∈ durs, 0 < d) (hN : 0 < N) :
    ∃ out, alignFrames durs N = some out ∧ out.length = durs.length ∧
      out.sum = (N : ℤ) :=
  alignFrames_total durs N hne hpos

theorem C1_witness :
    ∃ out, alignFrames [1, 1, 1] 10 = some out ∧
      out.length = ([1, 1, 1] : List ℚ).length ∧ out.sum = ((10 : ℕ) : ℤ) :=
  C1_align_length_and_exact_sum [1, 1, 1] 10 (by simp)
    (by intro d hd; simp only [List.mem_cons, List.not_mem_nil, or_false] at hd
        rcases hd with h | h | h <;> rw [h] <;> norm_num)
    (by norm_num)

/-- C2 as written is false: when the rounded frames undershoot, ties in the
ranking are broken by descending (not ascending) original index, because
`numpy.argsort` is ascending-stable and line 300 reverses it; on durations
`[1.0, 1.0, 1.0]` with target 10 the raw frames are `[3, 3, 3]` and the
extra frame goes to index 2, giving `[3, 3, 4]`, not `[4, 3, 3]`. -/
theorem C2_counterexample :
    alignFrames [1, 1, 1] 10 = some [3, 3, 4] ∧
      ¬ alignFrames [1, 1, 1] 10 = some [4, 3, 3] := by
  refine ⟨align111, ?_⟩
  rw [align111]
  simp

/-- C2 (amended): when `diff > 0` the aligner adds one frame to each of
the top `diff` indices of a ranking by descending raw frame count.  The
order among *tied* counts is whatever `numpy.argsort` produces; numpy's
default sort is unstable in general and guarantees the input order of
equal elements only for short arrays (under 16 elements, which it
insertion-sorts), so no general tie rule is asserted — only the
value-descending order, which holds for any argsort tie order.  For
durations `[1.0, 1.0, 1.0]` and `target_frame_count = 10` the frame array
has 3 entries, within the stable regime: the raw frames are `[3, 3, 3]`,
`diff = +1`, the reversed argsort is `[2, 1, 0]`, index 2 receives the
extra frame, and the output is `[3, 3, 4]`, not `[4, 3, 3]`. -/
theorem C2_rank_by_descending_count :
    (∀ frames : List ℤ, (argsortDesc frames).Pairwise
      (fun i j => frames.getD j 0 ≤ frames.getD i 0))
    ∧ rawFrames [1, 1, 1] 10 = [3, 3, 3]
    ∧ argsortDesc [3, 3, 3] = [2, 1, 0]
    ∧ alignFrames [1, 1, 1] 10 = some [3, 3, 4] := by
  refine ⟨?_, raw111, by decide, align111⟩
  intro frames
  have hs := List.sorted_insertionSort (leIdx frames) (List.range frames.length)
  unfold argsortDesc
  rw [List.pairwise_reverse]
  refine hs.imp ?_
  intro a b hab
  unfold leIdx at hab
  rcases hab with h | ⟨h, -⟩
  · exact le_of_lt h
  · exact le_of_eq h

/-- C5 as written is false: the claimed failure point does not exist.  At
`target_frame_count = 0` with the non-empty positive duration list `[1.0]`
the scale factor is `0`, all raw frames round to `0`, `diff = 0` and the
assertion `sum(frames) == len(melspec)` holds, so the aligner succeeds and
returns `[0]` instead of raising. -/
theorem C5_counterexample :
    alignFrames [1] 0 = some [0] ∧ ¬ alignFrames [1] 0 = none := by
  refine ⟨align1zero, ?_⟩
  rw [align1zero]
  simp

/-- C5 (amended): on every non-empty list of positive durations the aligner
succeeds for *every* target frame count, including zero (where it returns
an all-zero frame sequence summing to the target); it has no failure mode
on such inputs. -/
theorem C5_no_failure_on_positive_durations (durs : List ℚ) (N : ℕ)
    (hne : durs ≠ []) (hpos : ∀ d ∈ durs, 0 < d) :
    ∃ out, alignFrames durs N = some out ∧ out.sum = (N : ℤ) := by
  obtain ⟨out, h1, _, h3⟩ := alignFrames_total durs N hne hpos
  exact ⟨out, h1, h3⟩

theorem C5_witness :
    ∃ out, alignFrames [1] 0 = some out ∧ out.sum = ((0 : ℕ) : ℤ) :=
  C5_no_failure_on_positive_durations [1] 0 (by simp)
    (by intro d hd; rw [List.mem_singleton] at hd; rw [hd]; norm_num)

/-- C7: whenever the aligner returns a frame sequence, every index's final
frame count differs from its rounded raw value by at most 1. -/
theorem C7_correction_at_most_one (durs : List ℚ) (N : ℕ) (out : List ℤ)
    (h : alignFrames durs N = some out) (j : ℕ) :
    (out.getD j 0 - (rawFrames durs N).getD j 0).natAbs ≤ 1 := by
  unfold alignFrames at h
  by_cases hs : durs.sum = 0
  · rw [if_pos hs] at h
    cases h
  · rw [if_neg hs] at h
    unfold correctFrames at h
    by_cases hb : (((N : ℤ) - (rawFrames durs N).sum).natAbs ≤ (rawFrames durs N).length)
    · rw [if_pos hb] at h
      by_cases hsum : ((correction (rawFrames durs N) ((N : ℤ) - (rawFrames durs N).sum)).sum = (N : ℤ))
      · rw [if_pos hsum] at h
        have hout := Option.some.inj h
        rw [← hout]
        exact correction_getD _ _ j
      · rw [if_neg hsum] at h
        cases h
    · rw [if_neg hb] at h
      cases h

theorem C7_witness :
    (([3, 3, 4] : List ℤ).getD 2 0 - (rawFrames [1, 1, 1] 10).getD 2 0).natAbs ≤ 1 :=
  C7_correction_at_most_one [1, 1, 1] 10 [3, 3, 4] align111 2

/-! ## String utilities shared by the frontend models -/

/-- The apostrophe character (written via its code point so the file body
stays free of stray quote characters). -/
def apos : Char := Char.ofNat 39

/-- Python `str.replace(pat, rep)`: rewrite every non-overlapping occurrence
of `pat`, scanning left to right.  The fuel argument (initially the string
length) only makes the recursion structural; it cannot run out because each
step consumes at least one character. -/
def replaceAllAux (pat rep : Str) : ℕ → Str → Str
  | 0, s => s
  | _ + 1, [] => []
  | fuel + 1, c :: rest =>
      if pat ≠ [] ∧ pat.isPrefixOf (c :: rest) then
        rep ++ replaceAllAux pat rep fuel (List.drop pat.length (c :: rest))
      else
        c :: replaceAllAux pat rep fuel rest

def replaceAll (s pat rep : Str) : Str := replaceAllAux pat rep s.length s

/-- Python `sub in s`: substring containment. -/
def containsB (s pat : Str) : Bool := s.tails.any (fun t => pat.isPrefixOf t)

/-! ## Code-switching segmentation
(`string_to_tensor` lines 143-177 and `postprocess_codeswitch` lines 99-129)

The external language identifier (`self.lid.identify`) hands back a list of
sub-word tokens, each a surface form with a raw entity tag; everything after
that call is in the repository and is modelled here. -/

/-- One sub-word token of the external language identifier. -/
structure TaggedWord where
  word : Str
  entity : Str
deriving DecidableEq

/-- A chunk: a run of words with one resolved phonemization language. -/
structure Chunk where
  word : Str
  lang : Str
deriving DecidableEq

def esLang : Str := "es".toList

def enLang : Str := "en-us".toList

/-- Lines 150-160: map the identifier's raw tag to a g2p language:
`spa`/`other` to Spanish, `en` to English, `ne` (named entity) to English
exactly when the word is in the English city-name lexicon, anything else
to Spanish. -/
def resolveLang (enCities : List Str) (w : TaggedWord) : Str :=
  if w.entity = "spa".toList ∨ w.entity = "other".toList then esLang
  else if w.entity = "en".toList then enLang
  else if w.entity = "ne".toList then
    (if w.word ∈ enCities then enLang else esLang)
  else esLang

/-- Line 167: word-piece continuations (`##...`), apostrophe fragments and
the bare possessive `s` inherit the current chunk's language. -/
def isFragment (w : Str) : Bool :=
  (['#', '#'].isPrefixOf w) || ([apos].isPrefixOf w) || (w == ['s'])

/-- The loop body of lines 146-175 after the first word: accumulate closed
chunks, the current chunk text and the current language. -/
def buildChunksLoop (enCities : List Str) :
    List TaggedWord → List Chunk → Str → Str → List Chunk
  | [], chunks, curWord, curLang => chunks ++ [⟨curWord, curLang⟩]
  | w :: rest, chunks, curWord, curLang =>
      let g0 := resolveLang enCities w
      let g := if isFragment w.word then curLang else g0
      if g = curLang then
        buildChunksLoop enCities rest chunks (curWord ++ ' ' :: w.word) curLang
      else
        buildChunksLoop enCities rest (chunks ++ [⟨curWord, curLang⟩]) w.word g

/-- Lines 143-176 of `string_to_tensor`: greedy same-language run merging
over the identifier's token list.  On the empty token list the loop body
never runs, so the final `chunks.append({'word': current_chunk, ...})`
reads the unassigned local `current_chunk` and Python raises `NameError`;
`none` models that failure. -/
def buildChunks (enCities : List Str) : List TaggedWord → Option (List Chunk)
  | [] => none
  | w :: rest =>
      some (buildChunksLoop enCities rest [] w.word (resolveLang enCities w))

/-- Lines 103-109 of `postprocess_codeswitch`: strip word-piece markers and
re-attach apostrophe contractions according to the chunk language. -/
def cleanChunkSeq (lang : Str) (w : Str) : Str :=
  let seq := replaceAll w ([' ', '#', '#']) []
  let seq := if lang = esLang then
      replaceAll (replaceAll seq ([' ', 'd', ' ', apos, ' ']) ([' ', 'd', apos]))
        ([' ', apos, ' ', 's']) ([apos, 's'])
    else seq
  if lang = enLang then
    replaceAll (replaceAll (replaceAll (replaceAll seq
      ([' ', apos, ' ', 'l', 'l']) ([apos, 'l', 'l']))
      ([' ', apos, ' ', 's']) ([apos, 's']))
      ([' ', apos, ' ', 'v', 'e']) ([apos, 'v', 'e']))
      ([' ', apos, ' ', 'd']) ([apos, 'd'])
  else seq

/-- The fixed allow-list of known English words (`self.important_en`,
`__init__` line 63). -/
def important_en : List Str :=
  ["gym".toList, "red".toList, "Bye".toList, "bye".toList, "Exmouth".toList,
   "Derain".toList, "set".toList, "Oxhead".toList, "Guy".toList, "VIP".toList,
   "cutre".toList, "confort".toList, "Midge".toList, "yen".toList,
   "USB".toList, "aftersun".toList]

/-- `re.search(r"^[Ss][tpk]", seq)` of line 111. -/
def startsWithStopCluster (seq : Str) : Bool :=
  match seq with
  | a :: b :: _ => (a == 'S' || a == 's') && (b == 't' || b == 'p' || b == 'k')
  | _ => false

/-- `re.search(r"tions?$", seq)` of line 111. -/
def endsTion (seq : Str) : Bool :=
  (['t', 'i', 'o', 'n'].isSuffixOf seq) || (['t', 'i', 'o', 'n', 's'].isSuffixOf seq)

/-- `re.search(r"ings?$", seq)` of line 113. -/
def endsIng (seq : Str) : Bool :=
  (['i', 'n', 'g'].isSuffixOf seq) || (['i', 'n', 'g', 's'].isSuffixOf seq)

/-- The keep-as-English test of line 111: allow-list membership, city-name
membership, one of the letters or letter combinations `k`, `w`, `sh`, a
word-initial `St/st/Sp/sp/Sk/sk` cluster, or a `-tion(s)`/`-ing(s)` ending. -/
def keepEnglish (imp cities : List Str) (seq : Str) : Bool :=
  imp.contains seq || cities.contains seq || containsB seq ['k'] ||
    containsB seq ['w'] || containsB seq ['s', 'h'] ||
    startsWithStopCluster seq || endsTion seq || endsIng seq

/-- Lines 110-116: a chunk resolved to English whose text has *fewer than
one* space (`seq.count(" ") < 1`, i.e. a single word) is reclassified to
Spanish unless `keepEnglish` holds; chunks of two or more words are left
alone. -/
def reclassLang (imp cities : List Str) (lang : Str) (seq : Str) : Str :=
  if lang = enLang then
    if seq.count ' ' < 1 then
      if keepEnglish imp cities seq then lang else esLang
    else lang
  else lang

/-- Lines 100-128: the cursor-based merge into `cleaned_chunks`.  The
reversed accumulator head is the slot `cleaned_chunks[ptr]`; appending to
it models `cleaned_chunks[ptr]['word'] += " " + seq` and pushing a new head
models `ptr += 1` plus assignment, and the final `filter(None, ...)` is the
reversal of exactly the filled slots. -/
def ppLoop (imp cities : List Str) : List Chunk → List Chunk → List Chunk
  | acc, [] => acc.reverse
  | acc, c :: rest =>
      let seq := cleanChunkSeq c.lang c.word
      let lang := reclassLang imp cities c.lang seq
      match acc with
      | [] => ppLoop imp cities [⟨seq, lang⟩] rest
      | top :: others =>
          if lang = top.lang then
            ppLoop imp cities (⟨top.word ++ ' ' :: seq, top.lang⟩ :: others) rest
          else
            ppLoop imp cities (⟨seq, lang⟩ :: top :: others) rest

/-- `postprocess_codeswitch` (lines 99-129). -/
def postprocess_codeswitch (imp cities : List Str) (chunks : List Chunk) : List Chunk :=
  ppLoop imp cities [] chunks

/-- The whole segmentation step of `string_to_tensor` on the identifier's
token list: chunk building (lines 143-176) followed by
`postprocess_codeswitch` (line 177). -/
def segmentWords (imp cities : List Str) (ws : List TaggedWord) : Option (List Chunk) :=
  (buildChunks cities ws).map (postprocess_codeswitch imp cities)

/-! ## Claims about the segmentation -/

/-- C3 as written is false: the reclassification threshold of line 110 is
`seq.count(" ") < 1`, i.e. only single-word chunks are ever reclassified.
The two-word English-tagged chunk `"Hello world"` has one space, so it
keeps the secondary language and the result is a single `en-us` chunk,
not the claimed primary one. -/
theorem C3_counterexample :
    segmentWords important_en []
        [⟨("Hello").toList, ("en").toList⟩, ⟨("world").toList, ("en").toList⟩]
      = some [⟨("Hello world").toList, ("en-us").toList⟩]
    ∧ ¬ segmentWords important_en []
        [⟨("Hello").toList, ("en").toList⟩, ⟨("world").toList, ("en").toList⟩]
      = some [⟨("Hello world").toList, ("es").toList⟩] := by
  decide

/-- C3 (amended): only chunks resolved to the secondary language whose text
contains *no* space (i.e. a single word) are reclassified to the primary
language, and only when they match none of the allow-list, the place-name
lexicon, the distinctive letters/combinations `k`/`w`/`sh`, the
word-initial `St/st/Sp/sp/Sk/sk` clusters or the `-tion(s)`/`-ing(s)`
endings; a chunk with at least one space always keeps its language.  In
particular the two-word secondary chunk `"Hello world"` is *not*
reclassified: the output is the single chunk `("Hello world", secondary)`. -/
theorem C3_single_word_reclassification :
    (∀ imp cities seq, 1 ≤ seq.count ' ' →
        reclassLang imp cities enLang seq = enLang)
    ∧ (∀ imp cities seq, seq.count ' ' = 0 → keepEnglish imp cities seq = false →
        reclassLang imp cities enLang seq = esLang)
    ∧ (∀ imp cities seq, seq.count ' ' = 0 → keepEnglish imp cities seq = true →
        reclassLang imp cities enLang seq = enLang)
    ∧ segmentWords important_en []
        [⟨("Hello").toList, ("en").toList⟩, ⟨("world").toList, ("en").toList⟩]
      = some [⟨("Hello world").toList, ("en-us").toList⟩] := by
  refine ⟨?_, ?_, ?_, by decide⟩
  · intro imp cities seq h
    unfold reclassLang
    rw [if_pos rfl, if_neg (by omega)]
  · intro imp cities seq h hk
    unfold reclassLang
    rw [if_pos rfl, if_pos (by omega)]
    simp [hk]
  · intro imp cities seq h hk
    unfold reclassLang
    rw [if_pos rfl, if_pos (by omega)]
    simp [hk]

/-- C4 as written is false: on the empty tagged-word sequence the chunking
loop of lines 146-175 never assigns `current_chunk`/`current_lang`, so the
unconditional `chunks.append(...)` of line 176 raises `NameError` instead
of producing an empty chunk list. -/
theorem C4_counterexample :
    segmentWords important_en [] [] = none
    ∧ ¬ segmentWords important_en [] [] = some [] := by
  decide

/-- C4 (amended): for the empty sequence of language-tagged words the
segmentation step fails (an unbound-local `NameError` at the final append),
for every lexicon configuration; it does not return an empty chunk
sequence. -/
theorem C4_empty_input_fails (imp cities : List Str) :
    segmentWords imp cities [] = none := rfl

/-! ## Phone substitution (`map_phones`, lines 72-85) -/

/-- `re.sub` with a single-character negative lookbehind, as in
`re.sub(r"(?<!a|o|e)ɪ", "i", phones)`: rewrite `t` to `r` at every position
whose preceding character in the *original* string is not in `excl` (a
position at the start of the string has no preceding character and is
always rewritten).  `prev` carries the original previous character. -/
def subNotAfterAux (excl : List Char) (t r : Char) : Option Char → Str → Str
  | _, [] => []
  | prev, c :: rest =>
      (if c = t ∧ (∀ p ∈ excl, prev ≠ some p) then r else c)
        :: subNotAfterAux excl t r (some c) rest

def subNotAfter (excl : List Char) (t r : Char) (s : Str) : Str :=
  subNotAfterAux excl t r none s

/-- `map_phones` (lines 72-85): the fixed rule chain, in source order. -/
def map_phones (phones : Str) : Str :=
  let p := replaceAll phones ("ɔɪ".toList) ("oɪ".toList)
  let p := replaceAll p ("oʊ".toList) ("o".toList)
  let p := replaceAll p ("ɚɹ".toList) ("eɾ".toList)
  let p := replaceAll p ("ɚ".toList) ("eɾ".toList)
  let p := replaceAll p ("ɜ".toList) ("ɛɾ".toList)
  let p := replaceAll p ("dʒ".toList) ("tʃ".toList)
  let p := replaceAll p ("ᵻ".toList) ("i".toList)
  let p := replaceAll p ("æ".toList) ("a".toList)
  let p := replaceAll p ("ɔ".toList) ("o".toList)
  let p := replaceAll p ("ɑ".toList) ("o".toList)
  let p := replaceAll p ("ɐ".toList) ("a".toList)
  let p := replaceAll p ("ə".toList) ("e".toList)
  let p := replaceAll p ("ʌ".toList) ("a".toList)
  let p := subNotAfter ['a', 'o', 'e'] 'ɪ' 'i' p
  let p := subNotAfter ['a'] 'ʊ' 'u' p
  let p := subNotAfter ['e', 'ɛ'] 'ɾ' 't' p
  let p := replaceAll p ("g".toList) ("ɣ".toList)
  let p := replaceAll p ("v".toList) ("β".toList)
  let p := replaceAll p ("z".toList) ("s".toList)
  let p := replaceAll p ("h".toList) ("x".toList)
  let p := replaceAll p ("ɹ".toList) ("ɾ".toList)
  replaceAll p ("ʒ".toList) ("ʃ".toList)

/-- Every rule of `map_phones` needs at least one of these characters to
fire (each multi-character pattern contains one of them). -/
def mapPhonesTriggers : List Char :=
  ['ɔ', 'ʊ', 'ɚ', 'ɜ', 'ʒ', 'ᵻ', 'æ', 'ɑ', 'ɐ', 'ə', 'ʌ', 'ɪ', 'ɾ',
   'g', 'v', 'z', 'h', 'ɹ']

/-! ### Identity lemmas: a string touching no rule passes through -/

theorem replaceAllAux_eq_self (pat rep : Str) (c0 : Char) (hc : c0 ∈ pat) :
    ∀ (fuel : ℕ) (s : Str), c0 ∉ s → replaceAllAux pat rep fuel s = s := by
  intro fuel
  induction fuel with
  | zero => intro s _; rfl
  | succ n ih =>
    intro s hs
    match s with
    | [] => rfl
    | c :: rest =>
      have hnp : ¬ (pat ≠ [] ∧ pat.isPrefixOf (c :: rest)) := by
        rintro ⟨-, hpre⟩
        have hpre' : pat <+: c :: rest := by
          rwa [← List.isPrefixOf_iff_prefix]
        exact hs (hpre'.sublist.mem hc)
      unfold replaceAllAux
      rw [if_neg hnp]
      have hrest : c0 ∉ rest := fun h => hs (List.mem_cons_of_mem c h)
      rw [ih rest hrest]

theorem replaceAll_eq_self (s pat rep : Str) (c0 : Char) (hc : c0 ∈ pat)
    (h : c0 ∉ s) : replaceAll s pat rep = s :=
  replaceAllAux_eq_self pat rep c0 hc s.length s h

theorem subNotAfterAux_eq_self (excl : List Char) (t r : Char) :
    ∀ (prev : Option Char) (s : Str), t ∉ s → subNotAfterAux excl t r prev s = s := by
  intro prev s
  induction s generalizing prev with
  | nil => intro _; rfl
  | cons c rest ih =>
    intro hs
    have hct : ¬ (c = t ∧ (∀ p ∈ excl, prev ≠ some p)) := by
      rintro ⟨hc, -⟩
      exact hs (hc ▸ List.mem_cons_self c rest)
    unfold subNotAfterAux
    rw [if_neg hct]
    rw [ih (some c) (fun h => hs (List.mem_cons_of_mem c h))]

theorem subNotAfter_eq_self (excl : List Char) (t r : Char) (s : Str)
    (h : t ∉ s) : subNotAfter excl t r s = s :=
  subNotAfterAux_eq_self excl t r none s h

theorem map_phones_id (s : Str) (h : ∀ c ∈ s, c ∉ mapPhonesTriggers) :
    map_phones s = s := by
  have hof : ∀ c0 : Char, c0 ∈ mapPhonesTriggers → c0 ∉ s := by
    intro c0 hm hs
    exact h c0 hs hm
  unfold map_phones
  dsimp only
  rw [replaceAll_eq_self s _ _ 'ɔ' (by decide) (hof 'ɔ' (by decide)),
    replaceAll_eq_self s _ _ 'ʊ' (by decide) (hof 'ʊ' (by decide)),
    replaceAll_eq_self s _ _ 'ɚ' (by decide) (hof 'ɚ' (by decide)),
    replaceAll_eq_self s _ _ 'ɚ' (by decide) (hof 'ɚ' (by decide)),
    replaceAll_eq_self s _ _ 'ɜ' (by decide) (hof 'ɜ' (by decide)),
    replaceAll_eq_self s _ _ 'ʒ' (by decide) (hof 'ʒ' (by decide)),
    replaceAll_eq_self s _ _ 'ᵻ' (by decide) (hof 'ᵻ' (by decide)),
    replaceAll_eq_self s _ _ 'æ' (by decide) (hof 'æ' (by decide)),
    replaceAll_eq_self s _ _ 'ɔ' (by decide) (hof 'ɔ' (by decide)),
    replaceAll_eq_self s _ _ 'ɑ' (by decide) (hof 'ɑ' (by decide)),
    replaceAll_eq_self s _ _ 'ɐ' (by decide) (hof 'ɐ' (by decide)),
    replaceAll_eq_self s _ _ 'ə' (by decide) (hof 'ə' (by decide)),
    replaceAll_eq_self s _ _ 'ʌ' (by decide) (hof 'ʌ' (by decide)),
    subNotAfter_eq_self _ _ _ s (hof 'ɪ' (by decide)),
    subNotAfter_eq_self _ _ _ s (hof 'ʊ' (by decide)),
    subNotAfter_eq_self _ _ _ s (hof 'ɾ' (by decide)),
    replaceAll_eq_self s _ _ 'g' (by decide) (hof 'g' (by decide)),
    replaceAll_eq_self s _ _ 'v' (by decide) (hof 'v' (by decide)),
    replaceAll_eq_self s _ _ 'z' (by decide) (hof 'z' (by decide)),
    replaceAll_eq_self s _ _ 'h' (by decide) (hof 'h' (by decide)),
    replaceAll_eq_self s _ _ 'ɹ' (by decide) (hof 'ɹ' (by decide)),
    replaceAll_eq_self s _ _ 'ʒ' (by decide) (hof 'ʒ' (by decide))]

/-! ### Positional characterization of the lookbehind substitution -/

theorem subNotAfterAux_getD (excl : List Char) (t r : Char) :
    ∀ (s : Str) (prev : Option Char) (j : ℕ), j < s.length →
      (subNotAfterAux excl t r prev s).getD j ' ' =
        if s.getD j ' ' = t ∧
            (∀ p ∈ excl, (if j = 0 then prev else some (s.getD (j - 1) ' ')) ≠ some p)
          then r else s.getD j ' ' := by
  intro s
  induction s with
  | nil =>
    intro prev j hj
    simp at hj
  | cons c rest ih =>
    intro prev j hj
    cases j with
    | zero =>
      unfold subNotAfterAux
      simp
    | succ k =>
      have hk : k < rest.length := by simpa using hj
      unfold subNotAfterAux
      rw [List.getD_cons_succ, List.getD_cons_succ, ih (some c) k hk]
      cases k with
      | zero => simp
      | succ m => simp

theorem subNotAfter_getD (excl : List Char) (t r : Char) (s : Str) (j : ℕ)
    (hj : j < s.length) :
    (subNotAfter excl t r s).getD j ' ' =
      if s.getD j ' ' = t ∧ (j = 0 ∨ ∀ p ∈ excl, s.getD (j - 1) ' ' ≠ p)
        then r else s.getD j ' ' := by
  unfold subNotAfter
  rw [subNotAfterAux_getD excl t r s none j hj]
  cases j with
  | zero =>
    by_cases hA : s.getD 0 ' ' = t <;> simp [hA]
  | succ k =>
    by_cases hA : s.getD (k + 1) ' ' = t <;> simp [hA]

/-! ## Claim about the phone substitution -/

/-- C9: `map_phones` is a pure total function (its Lean model is a total
function by construction); input containing none of the rule-triggering
characters passes through unchanged; the lookbehind substitutions rewrite a
position exactly when the target character is not preceded by an excluded
character; and in particular `ɪ` after `t` becomes `i` while `ɪ` after `a`
survives, and `ʊ` after `t` becomes `u` while `ʊ` after `a` survives. -/
theorem C9_map_phones_pure_contextual :
    (∀ s : Str, (∀ c ∈ s, c ∉ mapPhonesTriggers) → map_phones s = s)
    ∧ (∀ (excl : List Char) (t r : Char) (s : Str) (j : ℕ), j < s.length →
        (subNotAfter excl t r s).getD j ' ' =
          if s.getD j ' ' = t ∧ (j = 0 ∨ ∀ p ∈ excl, s.getD (j - 1) ' ' ≠ p)
            then r else s.getD j ' ')
    ∧ map_phones ("tɪ".toList) = "ti".toList
    ∧ map_phones ("aɪ".toList) = "aɪ".toList
    ∧ map_phones ("tʊ".toList) = "tu".toList
    ∧ map_phones ("aʊ".toList) = "aʊ".toList :=
  ⟨map_phones_id, subNotAfter_getD, by decide, by decide, by decide, by decide⟩

/-! ## Punctuation folding
(`string_to_tensor`: lines 193-195 with 206 on the code-switching path,
lines 216-218 with 219 on the plain path; the two chains are identical) -/

/-- The punctuation replace chain applied to the phonemizer output, in
source order: `;`, `:`, `"`, `-` to `,`; newline, tab, `/` to space; `¡`,
`¿` deleted; finally `,` to the pause marker `~`. -/
def fold_punctuation (s : Str) : Str :=
  let p := replaceAll s ([';']) ([','])
  let p := replaceAll p ([':']) ([','])
  let p := replaceAll p (['"']) ([','])
  let p := replaceAll p (['-']) ([','])
  let p := replaceAll p (['-']) ([','])
  let p := replaceAll p (['\n']) ([' '])
  let p := replaceAll p (['\t']) ([' '])
  let p := replaceAll p (['/']) ([' '])
  let p := replaceAll p (['¡']) []
  let p := replaceAll p (['¿']) []
  replaceAll p ([',']) (['~'])

/-- `re.sub("~+", "~", phones)` (lines 206 and 219): collapse every run of
pause markers to one; `sawTilde` records whether the previous original
character was a pause marker. -/
def collapseTildeAux : Bool → Str → Str
  | _, [] => []
  | sawTilde, c :: rest =>
      if c = '~' then
        if sawTilde then collapseTildeAux true rest
        else '~' :: collapseTildeAux true rest
      else c :: collapseTildeAux false rest

def collapseTilde (s : Str) : Str := collapseTildeAux false s

/-- Punctuation folding followed by pause collapsing, as both
phonemization paths apply them. -/
def punct_fold (s : Str) : Str := collapseTilde (fold_punctuation s)

/-- Per-character restatement of the replace chain: `;`, `:`, `"`, `-`
and `,` fold to the pause marker; newline, tab and `/` become spaces;
`¡` and `¿` are deleted; every other character is kept. -/
def charFold (c : Char) : Str :=
  if c = ';' ∨ c = ':' ∨ c = '"' ∨ c = '-' ∨ c = ',' then ['~']
  else if c = '\n' ∨ c = '\t' ∨ c = '/' then [' ']
  else if c = '¡' ∨ c = '¿' then []
  else [c]

/-! ### The replace chain is the per-character fold -/

theorem replaceAllAux_single (a : Char) (rep : Str) :
    ∀ (fuel : ℕ) (s : Str), s.length ≤ fuel →
      replaceAllAux [a] rep fuel s = s.flatMap (fun c => if c = a then rep else [c]) := by
  intro fuel
  induction fuel with
  | zero =>
    intro s hs
    have : s = [] := List.length_eq_zero.mp (Nat.le_zero.mp hs)
    rw [this]
    rfl
  | succ n ih =>
    intro s hs
    match s with
    | [] => rfl
    | c :: rest =>
      have hr : rest.length ≤ n := by
        simp only [List.length_cons] at hs
        omega
      rw [List.flatMap_cons]
      by_cases hca : c = a
      · have hcond : ([a] : Str) ≠ [] ∧ ([a] : Str).isPrefixOf (c :: rest) := by
          refine ⟨by simp, ?_⟩
          simp [List.isPrefixOf, hca]
        unfold replaceAllAux
        rw [if_pos hcond]
        have hdrop : List.drop ([a] : Str).length (c :: rest) = rest := rfl
        rw [hdrop, ih rest hr, if_pos hca]
      · have hcond : ¬ (([a] : Str) ≠ [] ∧ ([a] : Str).isPrefixOf (c :: rest)) := by
          rintro ⟨-, hpre⟩
          simp [List.isPrefixOf] at hpre
          exact hca hpre.symm
        unfold replaceAllAux
        rw [if_neg hcond, ih rest hr, if_neg hca]
        rfl

theorem replaceAll_single (s : Str) (a : Char) (rep : Str) :
    replaceAll s [a] rep = s.flatMap (fun c => if c = a then rep else [c]) :=
  replaceAllAux_single a rep s.length s (le_refl _)

theorem fold_punctuation_flatMap (s : Str) :
    fold_punctuation s = s.flatMap charFold := by
  unfold fold_punctuation
  dsimp only
  rw [replaceAll_single, replaceAll_single, replaceAll_single, replaceAll_single,
    replaceAll_single, replaceAll_single, replaceAll_single, replaceAll_single,
    replaceAll_single, replaceAll_single, replaceAll_single,
    List.flatMap_assoc, List.flatMap_assoc, List.flatMap_assoc, List.flatMap_assoc,
    List.flatMap_assoc, List.flatMap_assoc, List.flatMap_assoc, List.flatMap_assoc,
    List.flatMap_assoc, List.flatMap_assoc]
  apply List.flatMap_congr
  intro c _
  by_cases h1 : c = ';'
  · subst h1; decide
  by_cases h2 : c = ':'
  · subst h2; decide
  by_cases h3 : c = '"'
  · subst h3; decide
  by_cases h4 : c = '-'
  · subst h4; decide
  by_cases h5 : c = '\n'
  · subst h5; decide
  by_cases h6 : c = '\t'
  · subst h6; decide
  by_cases h7 : c = '/'
  · subst h7; decide
  by_cases h8 : c = '¡'
  · subst h8; decide
  by_cases h9 : c = '¿'
  · subst h9; decide
  by_cases h10 : c = ','
  · subst h10; decide
  simp only [List.flatMap_cons, List.flatMap_nil, List.append_nil,
    if_neg h1, if_neg h2, if_neg h3, if_neg h4, if_neg h5, if_neg h6, if_neg h7,
    if_neg h8, if_neg h9, if_neg h10]
  unfold charFold
  rw [if_neg (by tauto), if_neg (by tauto), if_neg (by tauto)]

/-! ### The collapse leaves no two adjacent pause markers -/

theorem collapseTildeAux_props (s : Str) :
    ∀ sawTilde : Bool,
      (collapseTildeAux sawTilde s).Chain' (fun a b => ¬ (a = '~' ∧ b = '~'))
      ∧ (sawTilde = true → ∀ c ∈ (collapseTildeAux sawTilde s).head?, c ≠ '~') := by
  induction s with
  | nil =>
    intro sawTilde
    constructor
    · exact List.chain'_nil
    · intro _ c hc
      simp [collapseTildeAux] at hc
  | cons c rest ih =>
    intro sawTilde
    by_cases hc : c = '~'
    · subst hc
      cases sawTilde with
      | true =>
        have heq : collapseTildeAux true ('~' :: rest) = collapseTildeAux true rest := by
          simp [collapseTildeAux]
        rw [heq]
        exact ⟨(ih true).1, fun _ => (ih true).2 rfl⟩
      | false =>
        have heq : collapseTildeAux false ('~' :: rest)
            = '~' :: collapseTildeAux true rest := by
          simp [collapseTildeAux]
        rw [heq]
        constructor
        · rw [List.chain'_cons']
          refine ⟨?_, (ih true).1⟩
          intro y hy
          have hyne := (ih true).2 rfl y hy
          tauto
        · intro hfalse
          cases hfalse
    · have heq : collapseTildeAux sawTilde (c :: rest)
          = c :: collapseTildeAux false rest := by
        simp [collapseTildeAux, hc]
      rw [heq]
      constructor
      · rw [List.chain'_cons']
        refine ⟨?_, (ih false).1⟩
        intro y _
        tauto
      · intro _ d hd
        have hdc : c = d := by simpa using hd
        rw [← hdc]
        exact hc

theorem collapseTilde_no_adjacent_pauses (t : Str) :
    (collapseTilde t).Chain' (fun a b => ¬ (a = '~' ∧ b = '~')) := by
  unfold collapseTilde
  exact (collapseTildeAux_props t false).1

/-! ## Claim about the punctuation folding -/

/-- C8: the punctuation folding (the same chain on the segmented and the
unsegmented path) rewrites each character independently: semicolons,
colons, quotation marks, hyphens (and commas) fold to the pause marker,
`¡` and `¿` are deleted; the subsequent collapse leaves no two adjacent
pause markers; in particular `"a;b:c"` folds (with collapse) to
`"a~b~c"`. -/
theorem C8_punctuation_folding :
    (∀ s : Str, fold_punctuation s = s.flatMap charFold)
    ∧ charFold ';' = ['~'] ∧ charFold ':' = ['~'] ∧ charFold '"' = ['~']
    ∧ charFold '-' = ['~'] ∧ charFold '¡' = [] ∧ charFold '¿' = []
    ∧ (∀ t : Str, (collapseTilde t).Chain' (fun a b => ¬ (a = '~' ∧ b = '~')))
    ∧ punct_fold ("a;b:c".toList) = "a~b~c".toList :=
  ⟨fold_punctuation_flatMap, by decide, by decide, by decide, by decide,
    by decide, by decide, collapseTilde_no_adjacent_pauses, by decide⟩

/-! ## Symbol table loading (`__init__`, lines 42-51) -/

/-- Python `s.split(sep)` for a one-character separator; in particular
`"".split(sep) == [""]`. -/
def splitOnChar (sep : Char) : Str → List Str
  | [] => [[]]
  | c :: rest =>
      if c = sep then [] :: splitOnChar sep rest
      else
        match splitOnChar sep rest with
        | [] => [[c]]
        | t :: ts => (c :: t) :: ts

/-- Lines 42-47: split the resource text on newlines and run
`for index in range(1, len(phoneme_list)): ipa_to_vector[phoneme_list[index]] = index`.
The Python dict is modelled as the association list of writes in order;
`List.range' 1 (len - 1)` is `range(1, len)`.  Line index 0 never receives
an id. -/
def mkSymbolTable (content : Str) : List (Str × ℕ) :=
  (List.range' 1 ((splitOnChar '\n' content).length - 1)).map
    (fun i => ((splitOnChar '\n' content).getD i [], i))

/-- Line 42: `open` on an unreadable resource raises, modelled by `none`
input; any readable content (including the empty string) loads without
error. -/
def loadSymbolTable (resource : Option Str) : Option (List (Str × ℕ)) :=
  resource.map mkSymbolTable

/-- Python dict lookup over the write list: the last write wins. -/
def tableLookup (tbl : List (Str × ℕ)) (s : Str) : Option ℕ :=
  (tbl.reverse.find? (fun p => p.1 == s)).map Prod.snd

theorem find?_map_key (f : ℕ → Str × ℕ) (key : Str) :
    ∀ js : List ℕ, ∀ i ∈ js, (f i).1 = key →
      (∀ j ∈ js, (f j).1 = key → j = i) →
      ((js.map f).find? (fun p => p.1 == key)) = some (f i) := by
  intro js
  induction js with
  | nil =>
    intro i hi
    cases hi
  | cons j rest ih =>
    intro i hi hkey huniq
    by_cases hj : (f j).1 = key
    · have hji : j = i := huniq j (List.mem_cons_self j rest) hj
      have hbeq : ((f j).1 == key) = true := beq_iff_eq.mpr hj
      rw [List.map_cons, List.find?_cons, hbeq, hji]
    · have hbeq : ((f j).1 == key) = false := by
        rw [Bool.eq_false_iff]
        intro hb
        exact hj (beq_iff_eq.mp hb)
      rw [List.map_cons, List.find?_cons, hbeq]
      have hir : i ∈ rest := by
        rcases List.mem_cons.mp hi with hij | hir
        · exact absurd (hij ▸ hkey) hj
        · exact hir
      exact ih i hir hkey (fun k hk hkk => huniq k (List.mem_cons_of_mem j hk) hkk)

theorem tableLookup_mkSymbolTable (content : Str) (i : ℕ)
    (hnd : (splitOnChar '\n' content).Nodup)
    (h1 : 1 ≤ i) (hlt : i < (splitOnChar '\n' content).length) :
    tableLookup (mkSymbolTable content) ((splitOnChar '\n' content).getD i [])
      = some i := by
  unfold tableLookup mkSymbolTable
  rw [← List.map_reverse]
  rw [find?_map_key (fun j => ((splitOnChar '\n' content).getD j [], j))
    ((splitOnChar '\n' content).getD i [])
    ((List.range' 1 ((splitOnChar '\n' content).length - 1)).reverse) i ?memi rfl ?uniq]
  case memi =>
    rw [List.mem_reverse, List.mem_range'_1]
    omega
  case uniq =>
    intro j hj hkeyj
    rw [List.mem_reverse, List.mem_range'_1] at hj
    have hjlt : j < (splitOnChar '\n' content).length := by omega
    dsimp only at hkeyj
    rw [List.getD_eq_getElem _ [] hjlt, List.getD_eq_getElem _ [] hlt] at hkeyj
    exact (hnd.getElem_inj_iff).mp hkeyj
  rfl

/-! ## Claim about the symbol table loading -/

/-- C10 as written is false on the empty resource: reading an empty
phoneme list gives `phoneme_list == [""]`, `range(1, 1)` is empty, and the
constructor completes with an *empty* table instead of raising. -/
theorem C10_counterexample :
    loadSymbolTable (some []) = some [] ∧ ¬ loadSymbolTable (some []) = none := by
  decide

/-- C10 (amended): loading fails exactly when the resource is unreadable;
an empty resource loads an empty table.  On success, the symbol on line
`i` (counting lines from 0; line 0 is unused) is mapped to id `i`: when
the lines are distinct, looking up the line-`i` symbol yields `i` for
every `1 ≤ i < number of lines`. -/
theorem C10_load_and_line_ids :
    loadSymbolTable none = none
    ∧ (∀ content, loadSymbolTable (some content) = some (mkSymbolTable content))
    ∧ (∀ content i, (splitOnChar '\n' content).Nodup → 1 ≤ i →
        i < (splitOnChar '\n' content).length →
        tableLookup (mkSymbolTable content) ((splitOnChar '\n' content).getD i [])
          = some i)
    ∧ loadSymbolTable (some ("\na\nb".toList))
        = some [("a".toList, 1), ("b".toList, 2)] :=
  ⟨rfl, fun _ => rfl, tableLookup_mkSymbolTable, by decide⟩

/-! ## Token and id sequences of `phones_and_dur_to_tensor` (lines 273-293)

The string-processing half of `phones_and_dur_to_tensor`: pause-token
normalization, pause padding at both ends, splitting into
`symbol_duration` tokens, and building the two output sequences.  The
duration substrings are returned unparsed; their numeric use is
`alignFrames` above. -/

def pausePat : Str := "_p:_".toList

def pausePadStart : Str := "~_0.0001 ".toList

def pausePadEnd : Str := " ~_0.0001".toList

/-- Python `split()` (line 277): split on whitespace dropping empty
tokens; the only whitespace in these strings is the space character. -/
def splitWS (s : Str) : List Str :=
  (splitOnChar ' ' s).filter (fun t => !t.isEmpty)

/-- `phone, _, dur = phone_with_dur.partition("_")` (line 283): the part
before the first underscore. -/
def phonePart (t : Str) : Str := t.takeWhile (fun c => c != '_')

/-- The part after the first underscore (line 283), empty when there is
none. -/
def durPart (t : Str) : Str := (t.dropWhile (fun c => c != '_')).drop 1

/-- `phones.rstrip("~")` of line 286. -/
def rstripTilde (s : Str) : Str := (s.reverse.dropWhile (fun c => c == '~')).reverse

/-- `.lstrip("~")` of line 286. -/
def lstripTilde (s : Str) : Str := s.dropWhile (fun c => c == '~')

/-- Lines 275-276: prepend a pause token unless the string already starts
with the pause symbol; `phones[0]` on the empty string raises
(`IndexError`), modelled by `none`. -/
def padStart (phones : Str) : Option Str :=
  match phones with
  | [] => none
  | c :: _ => some (if c = '~' then phones else pausePadStart ++ phones)

/-- Lines 277-278: append a pause token unless the last whitespace token
starts with the pause symbol; `phones.split()[-1]` on a token-free string
raises, modelled by `none`. -/
def padEnd (p2 : Str) : Option Str :=
  match (splitWS p2).getLast? with
  | none => none
  | some [] => none
  | some (lc :: _) => some (if lc = '~' then p2 else p2 ++ pausePadEnd)

/-- Lines 279-293: connect the symbol characters of all tokens, strip
leading and trailing pause symbols, prepend the start marker `+`, and
encode through the symbol table, skipping symbols the table lacks (the
`KeyError` handler of lines 289-292 prints and continues). -/
def encodeSyms (table : Char → Option ℕ) (toks : List Str) : List ℕ :=
  ('+' :: lstripTilde (rstripTilde ((toks.map phonePart).flatten))).filterMap table

/-- The two sequences of `phones_and_dur_to_tensor` (lines 273-293): the
symbol-id sequence and the (unparsed) per-token duration strings. -/
def phonesDurSeqs (table : Char → Option ℕ) (phones0 : Str) :
    Option (List ℕ × List Str) :=
  match padStart (replaceAll phones0 pausePat ['~']) with
  | none => none
  | some p2 =>
    match padEnd p2 with
    | none => none
    | some p3 =>
      some (encodeSyms table (splitOnChar ' ' p3), (splitOnChar ' ' p3).map durPart)

/-- `" ".join(tokens)`. -/
def joinSpace : List Str → Str
  | [] => []
  | [t] => t
  | t :: rest => t ++ ' ' :: joinSpace rest

/-- The alignment source string for a list of (symbol, duration-text)
pairs: space-separated `symbol_duration` tokens. -/
def mkAlignerInput (pairs : List (Char × Str)) : Str :=
  joinSpace (pairs.map (fun p => p.1 :: '_' :: p.2))

/-! ### Splitting a joined token list recovers the tokens -/

theorem splitOnChar_no_sep (sep : Char) :
    ∀ t : Str, (∀ c ∈ t, c ≠ sep) → splitOnChar sep t = [t] := by
  intro t
  induction t with
  | nil => intro _; rfl
  | cons c rest ih =>
    intro h
    have hc : ¬ c = sep := h c (List.mem_cons_self c rest)
    have heq := ih (fun d hd => h d (List.mem_cons_of_mem c hd))
    unfold splitOnChar
    rw [if_neg hc, heq]

theorem splitOnChar_append (sep : Char) :
    ∀ t s : Str, (∀ c ∈ t, c ≠ sep) →
      splitOnChar sep (t ++ sep :: s) = t :: splitOnChar sep s := by
  intro t
  induction t with
  | nil =>
    intro s _
    show splitOnChar sep (sep :: s) = [] :: splitOnChar sep s
    simp only [splitOnChar]
    rw [if_pos trivial]
  | cons c rest ih =>
    intro s h
    have hc : ¬ c = sep := h c (List.mem_cons_self c rest)
    show splitOnChar sep (c :: (rest ++ sep :: s)) = (c :: rest) :: splitOnChar sep s
    simp only [splitOnChar]
    rw [if_neg hc, ih s (fun d hd => h d (List.mem_cons_of_mem c hd))]

theorem splitOnChar_joinSpace :
    ∀ toks : List Str, toks ≠ [] → (∀ t ∈ toks, ∀ c ∈ t, c ≠ ' ') →
      splitOnChar ' ' (joinSpace toks) = toks := by
  intro toks
  induction toks with
  | nil => intro h; exact absurd rfl h
  | cons t rest ih =>
    intro _ h
    cases rest with
    | nil =>
      have hj : joinSpace [t] = t := rfl
      rw [hj]
      exact splitOnChar_no_sep ' ' t (h t (List.mem_cons_self t []))
    | cons r rs =>
      have hj : joinSpace (t :: r :: rs) = t ++ ' ' :: joinSpace (r :: rs) := rfl
      rw [hj, splitOnChar_append ' ' t _ (h t (List.mem_cons_self t (r :: rs))),
        ih (by simp) (fun u hu => h u (List.mem_cons_of_mem t hu))]

/-! ### Per-token symbol and duration parts -/

theorem phonePart_tok (c : Char) (d : Str) (hc : c ≠ '_') :
    phonePart (c :: '_' :: d) = [c] := by
  unfold phonePart
  rw [List.takeWhile_cons, List.takeWhile_cons]
  simp [hc]

theorem durPart_tok (c : Char) (d : Str) (hc : c ≠ '_') :
    durPart (c :: '_' :: d) = d := by
  unfold durPart
  rw [List.dropWhile_cons, List.dropWhile_cons]
  simp [hc]

theorem flatten_map_fst (pairs : List (Char × Str)) :
    (pairs.map (fun p => [p.1])).flatten = pairs.map Prod.fst := by
  induction pairs with
  | nil => rfl
  | cons p rest ih => simp [List.flatten_cons, ih]

/-! ### Stripping the padding pauses -/

theorem strip_mid (mid : Str) (h1 : mid.head? ≠ some '~')
    (h2 : mid.getLast? ≠ some '~') :
    lstripTilde (rstripTilde ('~' :: (mid ++ ['~']))) = mid := by
  cases hm : mid with
  | nil => decide
  | cons m ms =>
    have hmne : mid ≠ [] := by rw [hm]; simp
    have hmhead : m ≠ '~' := by
      rw [hm] at h1
      simpa using h1
    have hlastne : mid.getLast hmne ≠ '~' := by
      intro hcon
      rw [List.getLast?_eq_getLast mid hmne, hcon] at h2
      exact h2 rfl
    rw [← hm]
    have hdec : mid = mid.dropLast ++ [mid.getLast hmne] :=
      (List.dropLast_append_getLast hmne).symm
    unfold rstripTilde
    have hrev : ('~' :: (mid ++ ['~'])).reverse = '~' :: (mid.reverse ++ ['~']) := by
      rw [List.reverse_cons, List.reverse_append]
      rfl
    rw [hrev]
    have hstep : List.dropWhile (fun c => c == '~') ('~' :: (mid.reverse ++ ['~']))
        = List.dropWhile (fun c => c == '~') (mid.reverse ++ ['~']) := by
      rw [List.dropWhile_cons]
      simp
    rw [hstep]
    have hrevne : mid.reverse = mid.getLast hmne :: mid.dropLast.reverse := by
      conv_lhs => rw [hdec]
      rw [List.reverse_append]
      rfl
    have hstay : List.dropWhile (fun c => c == '~') (mid.reverse ++ ['~'])
        = mid.reverse ++ ['~'] := by
      rw [hrevne, List.cons_append, List.dropWhile_cons]
      simp [hlastne]
    rw [hstay]
    have hback : (mid.reverse ++ ['~']).reverse = '~' :: mid := by
      rw [List.reverse_append, List.reverse_reverse]
      rfl
    rw [hback]
    unfold lstripTilde
    rw [List.dropWhile_cons]
    simp only [beq_self_eq_true, if_true]
    rw [hm, List.dropWhile_cons]
    simp [hmhead]

/-! ### Decomposing the padded symbol sequence -/

theorem eq_cons_append_last (l : Str) (h2 : 2 ≤ l.length)
    (hh : l.head? = some '~') (hl : l.getLast? = some '~') :
    l = '~' :: ((l.drop 1).dropLast ++ ['~']) := by
  cases l with
  | nil => simp at h2
  | cons a t =>
    have ha : a = '~' := by simpa using hh
    have htne : t ≠ [] := by
      intro hcon
      rw [hcon] at h2
      simp at h2
    have hlcons : (a :: t).getLast (List.cons_ne_nil a t) = t.getLast htne :=
      List.getLast_cons htne
    have hlast : t.getLast htne = '~' := by
      have := List.getLast?_eq_getLast (a :: t) (List.cons_ne_nil a t)
      rw [hl, hlcons] at this
      exact (Option.some.inj this).symm
    subst ha
    have hdrop : (('~' :: t).drop 1).dropLast = t.dropLast := by rfl
    rw [hdrop]
    congr 1
    conv_lhs => rw [← List.dropLast_append_getLast htne]
    rw [hlast]

/-! ### Encoding length with a total table -/

theorem filterMap_length_all_some (table : Char → Option ℕ) :
    ∀ l : Str, (∀ c ∈ l, (table c).isSome) →
      (l.filterMap table).length = l.length := by
  intro l
  induction l with
  | nil => intro _; rfl
  | cons c rest ih =>
    intro h
    obtain ⟨v, hv⟩ := Option.isSome_iff_exists.mp (h c (List.mem_cons_self c rest))
    rw [List.filterMap_cons, hv]
    simp only [List.length_cons]
    rw [ih (fun d hd => h d (List.mem_cons_of_mem c hd))]

/-! ### The frame sequence keeps one entry per duration -/

theorem alignFrames_some_length (qs : List ℚ) (N : ℕ) (out : List ℤ)
    (h : alignFrames qs N = some out) : out.length = qs.length := by
  unfold alignFrames at h
  by_cases hs : qs.sum = 0
  · rw [if_pos hs] at h
    cases h
  · rw [if_neg hs] at h
    unfold correctFrames at h
    by_cases hb : (((N : ℤ) - (rawFrames qs N).sum).natAbs ≤ (rawFrames qs N).length)
    · rw [if_pos hb] at h
      by_cases hsum : ((correction (rawFrames qs N) ((N : ℤ) - (rawFrames qs N).sum)).sum = (N : ℤ))
      · rw [if_pos hsum] at h
        rw [← Option.some.inj h, correction_length, rawFrames_length]
      · rw [if_neg hsum] at h
        cases h
    · rw [if_neg hb] at h
      cases h

/-! ## Claim about the two output sequences of `phones_and_dur_to_tensor` -/

set_option maxHeartbeats 2000000 in
/-- C6 (amended): the two sequences are not index-aligned.  For a padded
token sequence of `n` single-character table symbols `symbol_duration`
beginning and ending with the pause symbol, the duration (and hence frame)
sequence has one entry per token (`n`), while the id sequence strips the
leading and trailing pause runs and prepends the start marker `+`; its
length is `n - 1` *provided* the symbols directly inside the two padding
pauses are not themselves pauses (otherwise the strip removes more than the
padding and the id sequence is shorter — the correction the counterexample
forces).  The final conjunct: whenever the frame alignment succeeds it
returns exactly one frame count per duration. -/
theorem C6_id_and_frame_sequence_lengths (table : Char → Option ℕ) (pairs : List (Char × Str))
    (h2 : 2 ≤ pairs.length)
    (hh : (pairs.map Prod.fst).head? = some '~')
    (hl : (pairs.map Prod.fst).getLast? = some '~')
    (hm1 : ((pairs.map Prod.fst).drop 1).dropLast.head? ≠ some '~')
    (hm2 : ((pairs.map Prod.fst).drop 1).dropLast.getLast? ≠ some '~')
    (hsym : ∀ p ∈ pairs, p.1 ≠ '_' ∧ p.1 ≠ ' ' ∧ (table p.1).isSome)
    (hdur : ∀ p ∈ pairs, ∀ c ∈ p.2, c ≠ ' ')
    (hplus : (table '+').isSome)
    (hrep : replaceAll (mkAlignerInput pairs) pausePat ['~'] = mkAlignerInput pairs) :
    (∃ ids, phonesDurSeqs table (mkAlignerInput pairs)
        = some (ids, pairs.map Prod.snd) ∧ ids.length = pairs.length - 1)
    ∧ (∀ (qs : List ℚ) (N : ℕ) (out : List ℤ),
        alignFrames qs N = some out → out.length = qs.length) := by
  refine ⟨?_, alignFrames_some_length⟩
  have hnospace : ∀ t ∈ pairs.map (fun p => p.1 :: '_' :: p.2), ∀ c ∈ t, c ≠ ' ' := by
    intro t ht c hcin
    obtain ⟨p, hp, rfl⟩ := List.mem_map.mp ht
    rcases List.mem_cons.mp hcin with rfl | hcin2
    · exact (hsym p hp).2.1
    · rcases List.mem_cons.mp hcin2 with rfl | hcin3
      · decide
      · exact hdur p hp c hcin3
  cases pairs with
  | nil => simp at h2
  | cons p0 prest =>
  have hp01 : p0.1 = '~' := by simpa using hh
  have htoksne : (p0 :: prest).map (fun p => p.1 :: '_' :: p.2) ≠ [] := by simp
  have hsplit : splitOnChar ' ' (mkAlignerInput (p0 :: prest))
      = (p0 :: prest).map (fun p => p.1 :: '_' :: p.2) :=
    splitOnChar_joinSpace _ htoksne hnospace
  have hsws : splitWS (mkAlignerInput (p0 :: prest))
      = (p0 :: prest).map (fun p => p.1 :: '_' :: p.2) := by
    unfold splitWS
    rw [hsplit]
    apply List.filter_eq_self.mpr
    intro t ht
    obtain ⟨p, _, rfl⟩ := List.mem_map.mp ht
    simp
  have hshape : ∃ s, mkAlignerInput (p0 :: prest) = p0.1 :: s := by
    cases prest with
    | nil => exact ⟨'_' :: p0.2, rfl⟩
    | cons q qs =>
      exact ⟨('_' :: p0.2) ++ ' ' ::
        joinSpace ((q :: qs).map (fun p => p.1 :: '_' :: p.2)), rfl⟩
  obtain ⟨stail, hstail⟩ := hshape
  have hpad1 : padStart (mkAlignerInput (p0 :: prest))
      = some (mkAlignerInput (p0 :: prest)) := by
    rw [hstail]
    unfold padStart
    simp [hp01]
  have hlastp : ∃ pl, (p0 :: prest).getLast? = some pl ∧ pl.1 = '~' := by
    rw [List.getLast?_map] at hl
    match hgl : (p0 :: prest).getLast? with
    | none => rw [hgl] at hl; cases hl
    | some pl =>
      rw [hgl] at hl
      exact ⟨pl, rfl, Option.some.inj hl⟩
  obtain ⟨pl, hpl, hpl1⟩ := hlastp
  have htokslast : ((p0 :: prest).map (fun p => p.1 :: '_' :: p.2)).getLast?
      = some ('~' :: '_' :: pl.2) := by
    rw [List.getLast?_map, hpl]
    rw [Option.map_some']
    rw [hpl1]
  have hpad2 : padEnd (mkAlignerInput (p0 :: prest))
      = some (mkAlignerInput (p0 :: prest)) := by
    unfold padEnd
    rw [hsws, htokslast]
    simp
  have hdurs : ((p0 :: prest).map (fun p => p.1 :: '_' :: p.2)).map durPart
      = (p0 :: prest).map Prod.snd := by
    rw [List.map_map]
    apply List.map_congr_left
    intro p hp
    exact durPart_tok p.1 p.2 (hsym p hp).1
  have hphs : ((p0 :: prest).map (fun p => p.1 :: '_' :: p.2)).map phonePart
      = (p0 :: prest).map (fun p => [p.1]) := by
    rw [List.map_map]
    apply List.map_congr_left
    intro p hp
    exact phonePart_tok p.1 p.2 (hsym p hp).1
  have hsymlen : ((p0 :: prest).map Prod.fst).length = (p0 :: prest).length :=
    List.length_map _ _
  have hdecomp : (p0 :: prest).map Prod.fst
      = '~' :: ((((p0 :: prest).map Prod.fst).drop 1).dropLast ++ ['~']) :=
    eq_cons_append_last _ (by rw [hsymlen]; exact h2) hh hl
  have hstrip : lstripTilde (rstripTilde (((p0 :: prest).map Prod.fst))) 
      = (((p0 :: prest).map Prod.fst).drop 1).dropLast := by
    conv_lhs => rw [hdecomp]
    exact strip_mid _ hm1 hm2
  have hmidmem : ∀ c ∈ (((p0 :: prest).map Prod.fst).drop 1).dropLast,
      (table c).isSome := by
    intro c hc
    have hc2 : c ∈ ((p0 :: prest).map Prod.fst).drop 1 :=
      (List.dropLast_prefix _).sublist.mem hc
    have hc3 : c ∈ (p0 :: prest).map Prod.fst :=
      (List.drop_suffix 1 _).sublist.mem hc2
    obtain ⟨p, hp, rfl⟩ := List.mem_map.mp hc3
    exact (hsym p hp).2.2
  have hmidlen : ((((p0 :: prest).map Prod.fst).drop 1).dropLast).length
      = (p0 :: prest).length - 2 := by
    have hlen2 := congrArg List.length hdecomp
    simp only [List.length_map, List.length_cons, List.length_append,
      List.length_nil] at hlen2 ⊢
    omega
  have hids : (encodeSyms table ((p0 :: prest).map (fun p => p.1 :: '_' :: p.2))).length
      = (p0 :: prest).length - 1 := by
    unfold encodeSyms
    rw [hphs, flatten_map_fst, hstrip]
    rw [filterMap_length_all_some table _ ?hall]
    case hall =>
      intro c hc
      rcases List.mem_cons.mp hc with rfl | hc2
      · exact hplus
      · exact hmidmem c hc2
    simp only [List.length_cons]
    rw [hmidlen]
    have := h2
    simp only [List.length_cons] at this ⊢
    omega
  have hfinal : phonesDurSeqs table (mkAlignerInput (p0 :: prest))
      = some (encodeSyms table ((p0 :: prest).map (fun p => p.1 :: '_' :: p.2)),
          (p0 :: prest).map Prod.snd) := by
    unfold phonesDurSeqs
    rw [hrep, hpad1]
    dsimp only
    rw [hpad2]
    dsimp only
    rw [hsplit, hdurs]
  rw [hfinal]
  exact ⟨_, rfl, hids⟩


/-- A concrete stand-in for the `ipa_list.txt` symbol table resource
(which is not part of the repository sources): it contains the start
marker `+`, the pause symbol `~` and the letters used in the examples. -/
def demoTable : Char → Option ℕ := fun c =>
  if c = '+' then some 2 else if c = '~' then some 13
  else if c = 'a' then some 20 else if c = 'b' then some 21 else none

theorem C6_witness :
    (∃ ids, phonesDurSeqs demoTable (mkAlignerInput
        [('~', "1".toList), ('a', "1".toList), ('b', "1".toList), ('~', "1".toList)])
      = some (ids, ([('~', "1".toList), ('a', "1".toList), ('b', "1".toList),
          ('~', "1".toList)]).map Prod.snd)
      ∧ ids.length = ([('~', "1".toList), ('a', "1".toList), ('b', "1".toList),
          ('~', "1".toList)] : List (Char × Str)).length - 1)
    ∧ (∀ (qs : List ℚ) (N : ℕ) (out : List ℤ),
        alignFrames qs N = some out → out.length = qs.length) :=
  C6_id_and_frame_sequence_lengths demoTable
    [('~', "1".toList), ('a', "1".toList), ('b', "1".toList), ('~', "1".toList)]
    (by decide) (by decide) (by decide) (by decide) (by decide) (by decide)
    (by decide) (by decide) (by decide)

/-- C6 as written is false: the universally quantified input class admits
padded token sequences whose interior also ends in pauses.  On the 4-token
input `"~_1 a_1 ~_1 ~_1"` (all symbols in the table, first and last are the
pause symbol) `rstrip("~")` removes *both* trailing pauses, so the id
sequence has length 2, not `n - 1 = 3`; the frame sequence has length 4. -/
theorem C6_counterexample :
    (phonesDurSeqs demoTable ("~_1 a_1 ~_1 ~_1".toList)).map
        (fun r => (r.1.length, r.2.length)) = some (2, 4)
    ∧ ¬ (phonesDurSeqs demoTable ("~_1 a_1 ~_1 ~_1".toList)).map
        (fun r => (r.1.length, r.2.length)) = some (3, 4) := by
  decide
